import Mathlib

/-!
Verification of `src/filter_bookmarks.py` (panzi/filter_bookmarks).

The development shallowly embeds the bookmark-filtering core:

* `Entry` — the bookmark tree node (`'type'`-tagged dict in the source):
  a place (leaf with a `uri`), a container (with an optional `children`
  list: a Firefox export may omit the field entirely), or a node with
  any other type tag.  Every field of the dict other than `type`,
  `children` and `uri` is opaque pass-through metadata, modelled as an
  association list of JSON-ish values.
* `fetch` — the per-URL probe (source lines 44–62), parametrised by a
  `FetchEnv` supplying the filesystem-existence check and the HTTP GET
  (the two effectful operations).  Python's `re.match` of
  `^\s*file://(.*)` (case-insensitive) is embedded as `fileUrlMatch`;
  Python's `str.strip`/`str.lower`/`str.startswith` as
  `pyStrip`/`pyLower`/`pyStartsWith` (both sides treat the ASCII
  whitespace and letters the same; the divergence on exotic Unicode
  whitespace is irrelevant here).
* `_walk_bookmarks` / `walk_bookmarks` — the leaf enumerator (lines
  24–38), with the `TypeError` on an unknown tag as `Except.error`.
* `buildTable` / `lookupTable` — the dedup table of futures keyed by
  the exact URL string (lines 103–106): one `fetch` per distinct key.
* `filterList` — `_filter_bookmarks` (lines 64–98); the nonlocal
  `drop_count` becomes the second component of the result, and the
  `url_status_futurtes[url]` dict lookup that would raise `KeyError`
  on a missing key becomes `Except.error`.
* `filter_bookmarks` — the whole pass (lines 100–128); the wall-clock
  timestamp `int(time() * 1_000_000)` is the parameter `now_us`, and
  the drop count printed on the summary line is returned alongside the
  root in `FilterResult`.
-/

namespace FilterBookmarks

/-- A JSON scalar as it appears in the opaque metadata fields of a
bookmark entry (strings and integers are the only ones the claims
need to distinguish). -/
inductive JVal where
  | s (v : String)
  | n (v : Int)
deriving DecidableEq, Repr

/-- Opaque pass-through fields of an entry (everything except `type`,
`children`, `uri`), in dict order. -/
abbrev Meta := List (String × JVal)

/-- A bookmark tree node.  `place` is `type == 'text/x-moz-place'`,
`container` is `type == 'text/x-moz-place-container'` (its `children`
field may be absent: `entry.get('children')` can return `None`), and
`other` is any other `type` tag (such a dict may still carry a
`children` field, which line 93's `.get('children')` would read). -/
inductive Entry where
  | place (uri : String) (meta : Meta)
  | container (children : Option (List Entry)) (meta : Meta)
  | other (tag : String) (children : Option (List Entry)) (meta : Meta)
deriving Repr

/-- The exception kinds the probe can produce: `ssl.SSLError` (tested
with `isinstance` at line 76), `FileNotFoundError` (constructed at
line 52), and any other exception class, identified by its name. -/
inductive ExcKind where
  | sslError
  | fileNotFound
  | otherExc (name : String)
deriving DecidableEq, Repr

/-- Python's `type(exc).__name__` for the modelled exception kinds. -/
def ExcKind.clsName : ExcKind → String
  | .sslError => "SSLError"
  | .fileNotFound => "FileNotFoundError"
  | .otherExc n => n

/-- The probe outcome: the `Union[requests.Response, Exception, None]`
returned by `fetch`.  `absent` is `None`, `err` an exception object,
`response` a completed `requests.Response` (only its `status_code` is
ever consulted). -/
inductive Outcome where
  | absent
  | err (kind : ExcKind) (msg : String)
  | response (status_code : Nat)
deriving DecidableEq, Repr

/-- Result of `requests.get`: either a response or a raised exception
(line 60–62 converts the latter into the `err` outcome). -/
inductive HttpResult where
  | response (status_code : Nat)
  | exc (kind : ExcKind) (msg : String)
deriving DecidableEq, Repr

/-- The two effectful operations the probe performs, abstracted: the
filesystem-existence check `os.path.exists` and the network call
`requests.get` (redirects followed, verification disabled — those
options do not appear in the pure model). -/
structure FetchEnv where
  fileExists : String → Bool
  httpGet : String → HttpResult

/-- Python's `str.strip()`: remove whitespace from both ends. -/
def pyStrip (s : String) : String :=
  String.mk
    (((s.toList.dropWhile Char.isWhitespace).reverse.dropWhile
        Char.isWhitespace).reverse)

/-- Python's `str.lower()` (the URLs at issue are ASCII, where this
and Python agree). -/
def pyLower (s : String) : String :=
  String.mk (s.toList.map Char.toLower)

/-- Python's `str.startswith(p)`. -/
def pyStartsWith (s p : String) : Bool :=
  p.toList.isPrefixOf s.toList

/-- Python's `FILE_URL = re.compile(r'^\s*file://(.*)', re.I)` applied
with `.match(url)`: skip leading whitespace, match `file://`
case-insensitively, capture the rest of the line (`.` does not match
a newline) as the path.  Returns `none` when the regex does not
match. -/
def fileUrlMatch (url : String) : Option String :=
  let cs := url.toList.dropWhile Char.isWhitespace
  if (cs.take 7).map Char.toLower = "file://".toList then
    some (String.mk ((cs.drop 7).takeWhile (fun c => c ≠ '\n')))
  else
    none

/-- The probe `fetch` (source lines 44–62): a `file://` URL checks the
filesystem; a URL whose trimmed lower-cased form starts with neither
`http:` nor `https:` passes through as `absent`; otherwise an HTTP GET
is performed, a raised exception becoming `err`. -/
def fetch (env : FetchEnv) (url : String) : Outcome :=
  let norm_url := pyLower (pyStrip url)
  match fileUrlMatch url with
  | some filepath =>
      if env.fileExists filepath then .absent
      else .err .fileNotFound filepath
  | none =>
      if !pyStartsWith norm_url "http:" && !pyStartsWith norm_url "https:" then
        .absent
      else
        match env.httpGet url with
        | .response code => .response code
        | .exc kind msg => .err kind msg

/-- The keep/drop decision of the classifier. -/
inductive Decision where
  | keep
  | drop
deriving DecidableEq, Repr

/-- The keep/drop cascade of `_filter_bookmarks` (source lines 74–90),
as a Boolean: `None` kept, `SSLError` kept, any other exception
dropped, a response kept iff its status is in `[200, 400)` or is
`503`, `401` or `403`. -/
def keepOutcome : Outcome → Bool
  | .absent => true
  | .err .sslError _ => true
  | .err _ _ => false
  | .response code =>
      (200 ≤ code && code < 400) || code == 503 || code == 401 || code == 403

/-- The classifier component: the same cascade as `keepOutcome`
together with the diagnostic line printed at classification time
(`IGNORE-ERROR`, `ERROR` or `STATUS`, lines 78, 82 and 90). -/
def classify (url : String) (o : Outcome) : Decision × Option String :=
  match o with
  | .absent => (.keep, none)
  | .err .sslError msg =>
      (.keep, some ("IGNORE-ERROR SSLError " ++ url ++ " " ++ msg))
  | .err kind msg =>
      (.drop, some ("ERROR " ++ kind.clsName ++ " " ++ url ++ " " ++ msg))
  | .response code =>
      if (200 ≤ code ∧ code < 400) ∨ code = 503 ∨ code = 401 ∨ code = 403 then
        (.keep, none)
      else
        (.drop, some ("STATUS " ++ toString code ++ " " ++ url))

mutual

/-- Embedding of `_walk_bookmarks(entry, path)` (source lines 24–35): yields each
`(path, leaf)` pair in depth-first order; a container without a
`children` field yields nothing beneath it; any other type tag raises
`TypeError(f'unhandeled type: {entry_type}')`, embedded as
`Except.error`. -/
def _walk_bookmarks (entry : Entry) (path : List Entry) :
    Except String (List (List Entry × Entry)) :=
  match entry with
  | .place uri meta => .ok [(path, .place uri meta)]
  | .container children meta =>
      match children with
      | none => .ok []
      | some cs => walkChildren cs (path ++ [.container (some cs) meta])
  | .other tag _ _ => .error ("unhandeled type: " ++ tag)

/-- The `for child in children: yield from ...` loop of
`_walk_bookmarks`, sequencing the children left to right and
propagating the first error. -/
def walkChildren (entries : List Entry) (childpath : List Entry) :
    Except String (List (List Entry × Entry)) :=
  match entries with
  | [] => .ok []
  | c :: rest => do
      let first ← _walk_bookmarks c childpath
      let more ← walkChildren rest childpath
      .ok (first ++ more)

end

/-- Embedding of `walk_bookmarks(entry)` (source lines 37–38). -/
def walk_bookmarks (entry : Entry) :
    Except String (List (List Entry × Entry)) :=
  _walk_bookmarks entry []

mutual

/-- Embedding of `_filter_bookmarks(entries)` (source lines 64–98), with the
nonlocal `drop_count` made explicit as the second component of the
result: the `for entry in entries` loop, concatenating each entry's
contribution (one element, or none for a dropped place) in order and
summing the drop counts. -/
def filterList (table : String → Option Outcome) :
    List Entry → Except String (List Entry × Nat)
  | [] => .ok ([], 0)
  | e :: rest => do
      let (fe, m) ← filterEntry table e
      let (fes, n) ← filterList table rest
      .ok (fe ++ fes, m + n)

/-- One iteration of the `_filter_bookmarks` loop body (source lines
68–96).  A place looks its `uri` up in the futures table
(`url_status_futurtes[url].result()`; a missing key would raise
`KeyError`, embedded as `Except.error`) and is appended unchanged
when kept, or contributes nothing and bumps the drop counter; any
other entry (the `else` branch: containers and unknown tags alike) is
shallow-copied, its `children` — when the field is present — replaced
by the recursively filtered list, and always appended. -/
def filterEntry (table : String → Option Outcome) :
    Entry → Except String (List Entry × Nat)
  | .place uri meta =>
      match table uri with
      | none => .error ("KeyError: " ++ uri)
      | some result =>
          if keepOutcome result then .ok ([.place uri meta], 0)
          else .ok ([], 1)
  | .container children meta =>
      match children with
      | none => .ok ([.container none meta], 0)
      | some cs => do
          let (fcs, m) ← filterList table cs
          .ok ([.container (some fcs) meta], m)
  | .other tag children meta =>
      match children with
      | none => .ok ([.other tag none meta], 0)
      | some cs => do
          let (fcs, m) ← filterList table cs
          .ok ([.other tag (some fcs) meta], m)

end

/-- The lookup `bookmark['uri']`: the walked pairs only ever carry places (see
`walk_only_places`), whose `uri` this reads; the `""` fallback for the
other constructors is never reached. -/
def uriOf : Entry → String
  | .place uri _ => uri
  | _ => ""

/-- One iteration of the dedup loop of `filter_bookmarks` (source
lines 103–106): submit `fetch` for `bookmark['uri']` only when the
key is not yet in the table. -/
def buildTableStep (env : FetchEnv) (acc : List (String × Outcome))
    (pb : List Entry × Entry) : List (String × Outcome) :=
  if acc.any (fun kv => kv.1 == uriOf pb.2) then acc
  else acc ++ [(uriOf pb.2, fetch env (uriOf pb.2))]

/-- The dedup loop of `filter_bookmarks` (source lines 103–106): fold
over the walked `(path, bookmark)` pairs.  Insertion order is
first-seen order; the key is the exact URL string. -/
def buildTable (env : FetchEnv) (walked : List (List Entry × Entry)) :
    List (String × Outcome) :=
  walked.foldl (buildTableStep env) []

/-- Dict lookup `url_status_futurtes[url]` on the association-list
table (exact, case-sensitive string key). -/
def lookupTable (t : List (String × Outcome)) (url : String) : Option Outcome :=
  (t.find? (fun kv => kv.1 == url)).map (·.2)

/-- The synthesized canonical empty-root container (source lines
115–126), with the `type` and `children` fields structural and the
rest in dict order; `timestamp` is `int(time() * 1_000_000)`. -/
def emptyRoot (timestamp : Int) : Entry :=
  .container (some [])
    [ ("guid", .s "root________")
    , ("id", .n 1)
    , ("index", .n 0)
    , ("root", .s "placesRoot")
    , ("title", .s "")
    , ("typeCode", .n 2)
    , ("dateAdded", .n timestamp)
    , ("lastModified", .n timestamp) ]

/-- Default of the `max_workers` parameter of `filter_bookmarks`
(source line 40). -/
def filterBookmarksDefaultMaxWorkers : Nat := 64

/-- Embedding of `DEFAULT_MAX_WORKERS` (source line 130), the command-line
default. -/
def DEFAULT_MAX_WORKERS : Nat := 2048

/-- The result of one filtering pass: the rebuilt root together with
the drop count reported on the summary line (line 111). -/
structure FilterResult where
  root : Entry
  dropCount : Nat
deriving Repr

/-- The head of `filter_bookmarks(input, max_workers)` (source lines
100–109): walk the tree to seed one probe per distinct URL, then
rebuild via `_filter_bookmarks([input])` — the top-level filtered
list together with the drop count, or the propagated `TypeError` of
the walk.  (`max_workers` only bounds the thread pool and does not
affect any of this; `filter_bookmarks` below carries it.) -/
def rebuiltTop (env : FetchEnv) (input : Entry) :
    Except String (List Entry × Nat) :=
  match walk_bookmarks input with
  | .error e => .error e
  | .ok walked => filterList (lookupTable (buildTable env walked)) [input]

/-- The tail of `filter_bookmarks` (source lines 111–128): the
printed summary's drop count and the rebuilt top-level list, the
empty list replaced by the synthesized empty root, the non-empty one
by its single element `filtered_entries[0]`. -/
def filter_bookmarks (env : FetchEnv) (now_us : Int) (input : Entry)
    (max_workers : Nat := filterBookmarksDefaultMaxWorkers) :
    Except String FilterResult :=
  let _ := max_workers
  match rebuiltTop env input with
  | .error e => .error e
  | .ok (filtered_entries, drop_count) =>
      match filtered_entries with
      | [] => .ok ⟨emptyRoot now_us, drop_count⟩
      | e :: _ => .ok ⟨e, drop_count⟩

mutual

/-- Well-formedness of a single node: it and every node reachable from
it is a place or a container (no `other` tag anywhere). -/
def wellFormed : Entry → Bool
  | .place _ _ => true
  | .container none _ => true
  | .container (some cs) _ => wellFormedList cs
  | .other _ _ _ => false

/-- Well-formedness of a sibling list.  `wellFormedList es = false`
exactly when some node reachable from `es` has an unknown type
tag. -/
def wellFormedList : List Entry → Bool
  | [] => true
  | e :: rest => wellFormed e && wellFormedList rest

end

mutual

/-- The `uri`s of the places reachable from a single node, depth
first. -/
def entryUris : Entry → List String
  | .place uri _ => [uri]
  | .container none _ => []
  | .container (some cs) _ => placeUris cs
  | .other _ none _ => []
  | .other _ (some cs) _ => placeUris cs

/-- The `uri`s of all places in a sibling list, in the depth-first
order in which `_filter_bookmarks` consults them (descending into the
`children` field of containers and of unknown-tag nodes alike, as
line 93's `.get('children')` does). -/
def placeUris : List Entry → List String
  | [] => []
  | e :: rest => entryUris e ++ placeUris rest

end

mutual

/-- The places (uri and metadata) reachable from a single node, depth
first. -/
def entryPlaces : Entry → List (String × Meta)
  | .place uri m => [(uri, m)]
  | .container none _ => []
  | .container (some cs) _ => placesOf cs
  | .other _ none _ => []
  | .other _ (some cs) _ => placesOf cs

/-- All places (uri and metadata) of a sibling list in depth-first
order. -/
def placesOf : List Entry → List (String × Meta)
  | [] => []
  | e :: rest => entryPlaces e ++ placesOf rest

end

/-- Number of leaf occurrences in a sibling list. -/
def countPlaces (es : List Entry) : Nat := (placesOf es).length

mutual

/-- Modelled from the spec: the restriction of a single node to kept
leaves — a leaf is present unchanged exactly when `keep` holds of its
URL, a container is always present (never dropped) with its metadata
unchanged and its children list (when the field is present) restricted
recursively.  (The spec describes only well-formed trees; an
unknown-tag node is carried through unchanged.) -/
def restrictEntry (keep : String → Bool) : Entry → List Entry
  | .place uri m => if keep uri then [.place uri m] else []
  | .container none m => [.container none m]
  | .container (some cs) m => [.container (some (restrictKept keep cs)) m]
  | .other tag c m => [.other tag c m]

/-- Modelled from the spec: the input sibling list "restricted to kept
leaves", preserving the relative input order of the retained
entries. -/
def restrictKept (keep : String → Bool) : List Entry → List Entry
  | [] => []
  | e :: rest => restrictEntry keep e ++ restrictKept keep rest

end

/-- The keep/drop decision a rebuild makes for a URL under a given
futures table (`false` is also returned for a URL missing from the
table, where the rebuild would instead raise `KeyError`). -/
def keepFn (table : String → Option Outcome) (u : String) : Bool :=
  match table u with
  | some o => keepOutcome o
  | none => false

/-- The keep/drop decision the whole pass makes for a URL: the
classification of its single probe's outcome. -/
def passKeep (env : FetchEnv) (u : String) : Bool :=
  keepOutcome (fetch env u)

/-- A concrete probe environment for evaluating the development on
examples: no filesystem path exists and every GET returns 200. -/
def envAllOk : FetchEnv := ⟨fun _ => false, fun _ => .response 200⟩

/-- A concrete probe environment where every GET returns 404 (and no
filesystem path exists). -/
def env404 : FetchEnv := ⟨fun _ => false, fun _ => .response 404⟩

/-- A concrete futures table mapping the URL `"a"` to a 404 response
and every other URL to `None`. -/
def tableW : String → Option Outcome :=
  fun u => if u == "a" then some (.response 404) else some .absent

/-- A concrete tree: a container holding the leaf `"a"`, a childless
container, and the leaf `"b"`. -/
def treeW : Entry :=
  .container (some [.place "a" [], .container none [], .place "b" []]) []

/-- A concrete tree in which the same URL occurs at two distinct
leaves. -/
def dupTree : Entry :=
  .container (some [.place "dup" [], .place "dup" []]) []

/-- The walk of `dupTree`: both leaves, each under the root path. -/
def dupWalked : List (List Entry × Entry) :=
  [([dupTree], .place "dup" []), ([dupTree], .place "dup" [])]

mutual

theorem entryUris_eq_places_fst (e : Entry) :
    entryUris e = (entryPlaces e).map Prod.fst := by
  cases e with
  | place u m => rfl
  | container c m =>
      cases c with
      | none => rfl
      | some cs => simpa [entryUris, entryPlaces] using placeUris_eq_places_fst cs
  | other t c m =>
      cases c with
      | none => rfl
      | some cs => simpa [entryUris, entryPlaces] using placeUris_eq_places_fst cs

theorem placeUris_eq_places_fst (es : List Entry) :
    placeUris es = (placesOf es).map Prod.fst := by
  cases es with
  | nil => rfl
  | cons e rest =>
      simp [placeUris, placesOf, entryUris_eq_places_fst e,
        placeUris_eq_places_fst rest]

end

theorem wellFormedList_append (as bs : List Entry)
    (ha : wellFormedList as = true) (hb : wellFormedList bs = true) :
    wellFormedList (as ++ bs) = true := by
  induction as with
  | nil => simpa using hb
  | cons a rest ih =>
      rw [wellFormedList] at ha
      obtain ⟨h1, h2⟩ := (Bool.and_eq_true ..).mp ha
      simpa [wellFormedList, h1] using ih h2

mutual

theorem restrictEntry_wf (keep : String → Bool) (e : Entry)
    (h : wellFormed e = true) :
    wellFormedList (restrictEntry keep e) = true := by
  cases e with
  | place u m =>
      by_cases hk : keep u = true <;>
        simp [restrictEntry, wellFormedList, wellFormed, hk]
  | container c m =>
      cases c with
      | none => simp [restrictEntry, wellFormedList, wellFormed]
      | some cs =>
          have := restrictKept_wf keep cs (by simpa [wellFormed] using h)
          simp [restrictEntry, wellFormedList, wellFormed, this]
  | other t c m => simp [wellFormed] at h

theorem restrictKept_wf (keep : String → Bool) (es : List Entry)
    (h : wellFormedList es = true) :
    wellFormedList (restrictKept keep es) = true := by
  cases es with
  | nil => rfl
  | cons e rest =>
      rw [wellFormedList] at h
      have he := restrictEntry_wf keep e (by
        exact (Bool.and_eq_true ..).mp h |>.1)
      have hr := restrictKept_wf keep rest (by
        exact (Bool.and_eq_true ..).mp h |>.2)
      rw [restrictKept]
      exact wellFormedList_append _ _ he hr

end

theorem placesOf_append (as bs : List Entry) :
    placesOf (as ++ bs) = placesOf as ++ placesOf bs := by
  induction as with
  | nil => simp [placesOf]
  | cons a rest ih => simp [placesOf, ih]

mutual

theorem placesOf_restrictEntry (keep : String → Bool) (e : Entry)
    (h : wellFormed e = true) :
    placesOf (restrictEntry keep e) =
      (entryPlaces e).filter (fun pm => keep pm.1) := by
  cases e with
  | place u m =>
      by_cases hk : keep u = true <;>
        simp [restrictEntry, placesOf, entryPlaces, hk]
  | container c m =>
      cases c with
      | none => simp [restrictEntry, placesOf, entryPlaces]
      | some cs =>
          have := placesOf_restrictKept keep cs (by simpa [wellFormed] using h)
          simp [restrictEntry, placesOf, entryPlaces, this]
  | other t c m => simp [wellFormed] at h

theorem placesOf_restrictKept (keep : String → Bool) (es : List Entry)
    (h : wellFormedList es = true) :
    placesOf (restrictKept keep es) =
      (placesOf es).filter (fun pm => keep pm.1) := by
  cases es with
  | nil => rfl
  | cons e rest =>
      rw [wellFormedList] at h
      obtain ⟨h1, h2⟩ := (Bool.and_eq_true ..).mp h
      rw [restrictKept, placesOf_append, placesOf_restrictEntry keep e h1,
        placesOf_restrictKept keep rest h2]
      simp [placesOf, List.filter_append]

end

mutual

theorem restrictEntry_congr (k1 k2 : String → Bool) (e : Entry)
    (h : ∀ u ∈ entryUris e, k1 u = k2 u) :
    restrictEntry k1 e = restrictEntry k2 e := by
  cases e with
  | place u m =>
      have := h u (by simp [entryUris])
      simp [restrictEntry, this]
  | container c m =>
      cases c with
      | none => rfl
      | some cs =>
          have := restrictKept_congr k1 k2 cs
            (fun u hu => h u (by simpa [entryUris] using hu))
          simp [restrictEntry, this]
  | other t c m => rfl

theorem restrictKept_congr (k1 k2 : String → Bool) (es : List Entry)
    (h : ∀ u ∈ placeUris es, k1 u = k2 u) :
    restrictKept k1 es = restrictKept k2 es := by
  cases es with
  | nil => rfl
  | cons e rest =>
      have he := restrictEntry_congr k1 k2 e
        (fun u hu => h u (by simp [placeUris, hu]))
      have hr := restrictKept_congr k1 k2 rest
        (fun u hu => h u (by simp [placeUris, hu]))
      rw [restrictKept, restrictKept, he, hr]

end

theorem except_bind_ok {ε α β : Type} (a : α) (f : α → Except ε β) :
    (Except.ok a >>= f) = f a := rfl

theorem except_bind_err {ε α β : Type} (e : ε) (f : α → Except ε β) :
    ((Except.error e : Except ε α) >>= f) = Except.error e := rfl

mutual

theorem walk_ok_of_wf (e : Entry) (path : List Entry)
    (h : wellFormed e = true) :
    ∃ l, _walk_bookmarks e path = .ok l ∧
      l.map Prod.snd = (entryPlaces e).map (fun pm => Entry.place pm.1 pm.2) := by
  cases e with
  | place u m => exact ⟨[(path, .place u m)], rfl, rfl⟩
  | container c m =>
      cases c with
      | none => exact ⟨[], rfl, rfl⟩
      | some cs =>
          obtain ⟨l, hl, hmap⟩ := walkChildren_ok_of_wf cs
            (path ++ [.container (some cs) m]) (by simpa [wellFormed] using h)
          exact ⟨l, by simpa [_walk_bookmarks] using hl, by
            simpa [entryPlaces] using hmap⟩
  | other t c m => simp [wellFormed] at h

theorem walkChildren_ok_of_wf (es : List Entry) (path : List Entry)
    (h : wellFormedList es = true) :
    ∃ l, walkChildren es path = .ok l ∧
      l.map Prod.snd = (placesOf es).map (fun pm => Entry.place pm.1 pm.2) := by
  cases es with
  | nil => exact ⟨[], rfl, rfl⟩
  | cons e rest =>
      rw [wellFormedList] at h
      obtain ⟨h1, h2⟩ := (Bool.and_eq_true ..).mp h
      obtain ⟨l1, hl1, hm1⟩ := walk_ok_of_wf e path h1
      obtain ⟨l2, hl2, hm2⟩ := walkChildren_ok_of_wf rest path h2
      refine ⟨l1 ++ l2, ?_, ?_⟩
      · rw [walkChildren, hl1, hl2, except_bind_ok, except_bind_ok]
      · simp [placesOf, hm1, hm2]

end

mutual

theorem walk_err_of_nwf (e : Entry) (path : List Entry)
    (h : wellFormed e = false) :
    ∃ tag, _walk_bookmarks e path = .error ("unhandeled type: " ++ tag) := by
  cases e with
  | place u m => simp [wellFormed, wellFormedList] at h
  | container c m =>
      cases c with
      | none => simp [wellFormed, wellFormedList] at h
      | some cs =>
          obtain ⟨tag, htag⟩ := walkChildren_err_of_nwf cs
            (path ++ [.container (some cs) m])
            (by simpa [wellFormed] using h)
          exact ⟨tag, by simpa [_walk_bookmarks] using htag⟩
  | other t c m => exact ⟨t, rfl⟩

theorem walkChildren_err_of_nwf (es : List Entry) (path : List Entry)
    (h : wellFormedList es = false) :
    ∃ tag, walkChildren es path = .error ("unhandeled type: " ++ tag) := by
  cases es with
  | nil => simp [wellFormedList] at h
  | cons e rest =>
      rw [wellFormedList, Bool.and_eq_false_iff] at h
      cases h with
      | inl h1 =>
          obtain ⟨tag, htag⟩ := walk_err_of_nwf e path h1
          exact ⟨tag, by rw [walkChildren, htag, except_bind_err]⟩
      | inr h2 =>
          cases hwf : wellFormed e with
          | false =>
              obtain ⟨tag, htag⟩ := walk_err_of_nwf e path hwf
              exact ⟨tag, by rw [walkChildren, htag, except_bind_err]⟩
          | true =>
              obtain ⟨l1, hl1, _⟩ := walk_ok_of_wf e path hwf
              obtain ⟨tag, htag⟩ := walkChildren_err_of_nwf rest path h2
              exact ⟨tag, by
                rw [walkChildren, hl1, except_bind_ok, htag, except_bind_err]⟩

end

theorem buildTableStep_keys_mem (env : FetchEnv)
    (acc : List (String × Outcome)) (pb : List Entry × Entry) (url : String) :
    url ∈ (buildTableStep env acc pb).map Prod.fst ↔
      url ∈ acc.map Prod.fst ∨ url = uriOf pb.2 := by
  unfold buildTableStep
  by_cases hmem : (acc.any fun kv => kv.1 == uriOf pb.2) = true
  · rw [if_pos hmem]
    rw [List.any_eq_true] at hmem
    obtain ⟨kv, hkv, hbeq⟩ := hmem
    rw [beq_iff_eq] at hbeq
    constructor
    · exact Or.inl
    · rintro (h | rfl)
      · exact h
      · exact hbeq ▸ List.mem_map_of_mem Prod.fst hkv
  · rw [if_neg hmem]
    simp [eq_comm]

theorem buildTable_fold_keys_mem (env : FetchEnv)
    (walked : List (List Entry × Entry)) :
    ∀ (acc : List (String × Outcome)) (url : String),
      url ∈ (walked.foldl (buildTableStep env) acc).map Prod.fst ↔
        url ∈ acc.map Prod.fst ∨
          url ∈ walked.map (fun pb => uriOf pb.2) := by
  induction walked with
  | nil => simp
  | cons pb rest ih =>
      intro acc url
      rw [List.foldl_cons, ih, buildTableStep_keys_mem]
      simp [or_assoc]

theorem buildTable_fold_vals (env : FetchEnv)
    (walked : List (List Entry × Entry)) :
    ∀ (acc : List (String × Outcome)) (kv : String × Outcome),
      kv ∈ walked.foldl (buildTableStep env) acc →
        kv ∈ acc ∨ kv.2 = fetch env kv.1 := by
  induction walked with
  | nil => intro acc kv h; exact Or.inl (by simpa using h)
  | cons pb rest ih =>
      intro acc kv h
      rw [List.foldl_cons] at h
      rcases ih _ kv h with hacc | hfetch
      · unfold buildTableStep at hacc
        by_cases hmem : acc.any (fun x => x.1 == uriOf pb.2) = true
        · rw [if_pos hmem] at hacc
          exact Or.inl hacc
        · rw [if_neg hmem] at hacc
          rcases List.mem_append.mp hacc with h1 | h2
          · exact Or.inl h1
          · right
            obtain rfl : kv = (uriOf pb.2, fetch env (uriOf pb.2)) := by
              simpa using h2
            rfl
      · exact Or.inr hfetch

theorem buildTable_fold_nodup (env : FetchEnv)
    (walked : List (List Entry × Entry)) :
    ∀ (acc : List (String × Outcome)),
      (acc.map Prod.fst).Nodup →
        ((walked.foldl (buildTableStep env) acc).map Prod.fst).Nodup := by
  induction walked with
  | nil => intro acc h; simpa using h
  | cons pb rest ih =>
      intro acc h
      rw [List.foldl_cons]
      refine ih _ ?_
      unfold buildTableStep
      by_cases hmem : acc.any (fun x => x.1 == uriOf pb.2) = true
      · rw [if_pos hmem]; exact h
      · rw [if_neg hmem]
        have hnotin : uriOf pb.2 ∉ acc.map Prod.fst := by
          intro hin
          apply hmem
          rw [List.any_eq_true]
          obtain ⟨kv, hkv, hfst⟩ := List.mem_map.mp hin
          exact ⟨kv, hkv, by simp [hfst]⟩
        have : (acc.map Prod.fst ++ [uriOf pb.2]).Nodup := by
          rw [List.nodup_append]
          refine ⟨h, List.nodup_singleton _, ?_⟩
          intro a ha hb
          rw [List.mem_singleton] at hb
          exact hnotin (hb ▸ ha)
        simpa using this

theorem lookupTable_isSome_iff (t : List (String × Outcome)) (url : String) :
    (lookupTable t url).isSome = true ↔ url ∈ t.map Prod.fst := by
  unfold lookupTable
  have hmap : ∀ (x : Option (String × Outcome)),
      (x.map (·.2)).isSome = x.isSome := by
    intro x; cases x <;> rfl
  rw [hmap, List.find?_isSome]
  constructor
  · rintro ⟨kv, hkv, hbeq⟩
    rw [beq_iff_eq] at hbeq
    exact hbeq ▸ List.mem_map_of_mem Prod.fst hkv
  · intro hin
    obtain ⟨kv, hkv, hfst⟩ := List.mem_map.mp hin
    exact ⟨kv, hkv, by simp [hfst]⟩

theorem lookupTable_eq_some (t : List (String × Outcome)) (url : String)
    (o : Outcome) (h : lookupTable t url = some o) : (url, o) ∈ t := by
  unfold lookupTable at h
  obtain ⟨kv, hfind, hsnd⟩ := Option.map_eq_some.mp h
  have hmem := List.mem_of_find?_eq_some hfind
  have hp := List.find?_some hfind
  rw [beq_iff_eq] at hp
  have : kv = (url, o) := by
    cases kv; simp_all
  exact this ▸ hmem

theorem buildTable_lookup_fetch (env : FetchEnv)
    (walked : List (List Entry × Entry)) (url : String) (o : Outcome)
    (h : lookupTable (buildTable env walked) url = some o) :
    o = fetch env url := by
  have hmem := lookupTable_eq_some _ _ _ h
  rcases buildTable_fold_vals env walked [] (url, o) hmem with h0 | hv
  · simp at h0
  · exact hv

theorem buildTable_lookup_of_mem (env : FetchEnv)
    (walked : List (List Entry × Entry)) (url : String)
    (h : url ∈ walked.map (fun pb => uriOf pb.2)) :
    lookupTable (buildTable env walked) url = some (fetch env url) := by
  have hsome : (lookupTable (buildTable env walked) url).isSome = true := by
    rw [lookupTable_isSome_iff]
    exact (buildTable_fold_keys_mem env walked [] url).mpr (by simpa using h)
  obtain ⟨o, ho⟩ := Option.isSome_iff_exists.mp hsome
  rw [ho, buildTable_lookup_fetch env walked url o ho]

mutual

theorem filterEntry_eq_restrict (table : String → Option Outcome) (e : Entry)
    (hwf : wellFormed e = true)
    (htot : ∀ u ∈ entryUris e, (table u).isSome = true) :
    ∃ n, filterEntry table e = .ok (restrictEntry (keepFn table) e, n) ∧
      n + (placesOf (restrictEntry (keepFn table) e)).length
        = (entryPlaces e).length := by
  cases e with
  | place u m =>
      have hs := htot u (by simp [entryUris])
      obtain ⟨o, ho⟩ := Option.isSome_iff_exists.mp hs
      by_cases hk : keepOutcome o = true
      · exact ⟨0, by simp [filterEntry, ho, hk, restrictEntry, keepFn],
          by simp [restrictEntry, keepFn, ho, hk, placesOf, entryPlaces]⟩
      · rw [Bool.not_eq_true] at hk
        exact ⟨1, by simp [filterEntry, ho, hk, restrictEntry, keepFn],
          by simp [restrictEntry, keepFn, ho, hk, placesOf, entryPlaces]⟩
  | container c m =>
      cases c with
      | none =>
          exact ⟨0, by simp [filterEntry, restrictEntry],
            by simp [restrictEntry, placesOf, entryPlaces]⟩
      | some cs =>
          obtain ⟨n, heq, hcount⟩ := filterList_eq_restrict table cs
            (by simpa [wellFormed] using hwf)
            (fun u hu => htot u (by simpa [entryUris] using hu))
          refine ⟨n, ?_, ?_⟩
          · rw [filterEntry, heq, except_bind_ok]
            simp [restrictEntry]
          · simpa [restrictEntry, placesOf, entryPlaces] using hcount
  | other t c m => simp [wellFormed] at hwf

theorem filterList_eq_restrict (table : String → Option Outcome)
    (es : List Entry) (hwf : wellFormedList es = true)
    (htot : ∀ u ∈ placeUris es, (table u).isSome = true) :
    ∃ n, filterList table es = .ok (restrictKept (keepFn table) es, n) ∧
      n + (placesOf (restrictKept (keepFn table) es)).length
        = (placesOf es).length := by
  cases es with
  | nil => exact ⟨0, rfl, rfl⟩
  | cons e rest =>
      rw [wellFormedList] at hwf
      obtain ⟨h1, h2⟩ := (Bool.and_eq_true ..).mp hwf
      obtain ⟨m1, heq1, hc1⟩ := filterEntry_eq_restrict table e h1
        (fun u hu => htot u (by simp [placeUris, hu]))
      obtain ⟨m2, heq2, hc2⟩ := filterList_eq_restrict table rest h2
        (fun u hu => htot u (by simp [placeUris, hu]))
      refine ⟨m1 + m2, ?_, ?_⟩
      · rw [filterList, heq1, heq2]
        rfl
      · rw [restrictKept, placesOf_append, placesOf]
        simp only [List.length_append]
        omega

end

theorem map_uriOf_of_places (l : List (List Entry × Entry))
    (pms : List (String × Meta))
    (hmap : l.map Prod.snd = pms.map (fun pm => Entry.place pm.1 pm.2)) :
    l.map (fun pb => uriOf pb.2) = pms.map Prod.fst := by
  have h1 : l.map (fun pb => uriOf pb.2) = (l.map Prod.snd).map uriOf := by
    rw [List.map_map]; rfl
  rw [h1, hmap, List.map_map]; rfl

theorem restrictEntry_shape (keep : String → Bool) (e : Entry) :
    restrictEntry keep e = [] ∨ ∃ x, restrictEntry keep e = [x] := by
  cases e with
  | place u m =>
      by_cases hk : keep u = true
      · exact Or.inr ⟨.place u m, by simp [restrictEntry, hk]⟩
      · exact Or.inl (by simp [restrictEntry, hk])
  | container c m =>
      cases c with
      | none => exact Or.inr ⟨.container none m, rfl⟩
      | some cs => exact Or.inr ⟨.container (some (restrictKept keep cs)) m, rfl⟩
  | other t c m => exact Or.inr ⟨.other t c m, rfl⟩

theorem buildTable_congr (env1 env2 : FetchEnv)
    (walked : List (List Entry × Entry))
    (h : ∀ pb ∈ walked, fetch env1 (uriOf pb.2) = fetch env2 (uriOf pb.2)) :
    buildTable env1 walked = buildTable env2 walked := by
  unfold buildTable
  suffices hgen : ∀ (acc : List (String × Outcome)),
      walked.foldl (buildTableStep env1) acc =
        walked.foldl (buildTableStep env2) acc from hgen []
  induction walked with
  | nil => intro acc; rfl
  | cons pb rest ih =>
      intro acc
      rw [List.foldl_cons, List.foldl_cons]
      have hstep : buildTableStep env1 acc pb = buildTableStep env2 acc pb := by
        unfold buildTableStep
        rw [h pb (List.mem_cons_self pb rest)]
      rw [hstep]
      exact ih (fun q hq => h q (List.mem_cons_of_mem pb hq)) _

theorem walk_bookmarks_ok_of_wf (input : Entry) (hwf : wellFormed input = true) :
    ∃ l, walk_bookmarks input = .ok l ∧
      l.map Prod.snd = (entryPlaces input).map (fun pm => Entry.place pm.1 pm.2) := by
  obtain ⟨l, hl, hmap⟩ := walk_ok_of_wf input [] hwf
  exact ⟨l, by rw [walk_bookmarks]; exact hl, hmap⟩

theorem rebuiltTop_eq (env : FetchEnv) (input : Entry)
    (hwf : wellFormed input = true) :
    ∃ n, rebuiltTop env input =
        .ok (restrictKept (passKeep env) [input], n) ∧
      n + countPlaces (restrictKept (passKeep env) [input]) =
        countPlaces [input] := by
  obtain ⟨l, hwb, hmap⟩ := walk_bookmarks_ok_of_wf input hwf
  have huris : l.map (fun pb => uriOf pb.2) = entryUris input := by
    rw [map_uriOf_of_places l (entryPlaces input) hmap,
      entryUris_eq_places_fst]
  have hmem : ∀ u ∈ placeUris [input], u ∈ l.map (fun pb => uriOf pb.2) := by
    intro u hu
    rw [huris]
    simpa [placeUris] using hu
  have hlook : ∀ u ∈ placeUris [input],
      lookupTable (buildTable env l) u = some (fetch env u) :=
    fun u hu => buildTable_lookup_of_mem env l u (hmem u hu)
  have htot : ∀ u ∈ placeUris [input],
      ((lookupTable (buildTable env l)) u).isSome = true := by
    intro u hu
    rw [hlook u hu]; rfl
  obtain ⟨n, heq, hcount⟩ :=
    filterList_eq_restrict (lookupTable (buildTable env l)) [input]
      (by simp [wellFormedList, hwf]) htot
  have hcongr :
      restrictKept (keepFn (lookupTable (buildTable env l))) [input] =
        restrictKept (passKeep env) [input] :=
    restrictKept_congr _ _ _
      (fun u hu => by simp [keepFn, hlook u hu, passKeep])
  refine ⟨n, ?_, ?_⟩
  · unfold rebuiltTop
    rw [hwb]
    show filterList (lookupTable (buildTable env l)) [input] = _
    rw [heq, hcongr]
  · rw [countPlaces, countPlaces, ← hcongr]
    exact hcount

theorem keepOutcome_response (code : Nat) :
    keepOutcome (.response code) = true ↔
      (200 ≤ code ∧ code < 400) ∨ code = 503 ∨ code = 401 ∨ code = 403 := by
  simp [keepOutcome]
  tauto

/-- Claim C2: the classification of probe outcomes — `Absent` (fetch
returned `None`) is kept; an `SSLError` is kept, with the
`IGNORE-ERROR` diagnostic; any other exception is dropped; a response
with `200 ≤ code < 400` or code `503`, `401` or `403` is kept; any
other response code is dropped.  The final conjunct ties the
classifier component to the Boolean decision the rebuild applies. -/
theorem classifier_policy :
    (∀ url, classify url .absent = (.keep, none))
    ∧ (∀ url msg, classify url (.err .sslError msg) =
        (.keep, some ("IGNORE-ERROR SSLError " ++ url ++ " " ++ msg)))
    ∧ (∀ url msg, (classify url (.err .fileNotFound msg)).1 = .drop)
    ∧ (∀ url name msg, (classify url (.err (.otherExc name) msg)).1 = .drop)
    ∧ (∀ url code, (classify url (.response code)).1 =
        if (200 ≤ code ∧ code < 400) ∨ code = 503 ∨ code = 401 ∨ code = 403
          then .keep else .drop)
    ∧ (∀ url o, (classify url o).1 = .keep ↔ keepOutcome o = true) := by
  refine ⟨fun url => rfl, fun url msg => rfl, fun url msg => rfl,
    fun url name msg => rfl, ?_, ?_⟩
  · intro url code
    by_cases h : (200 ≤ code ∧ code < 400) ∨ code = 503 ∨ code = 401 ∨ code = 403 <;>
      simp [classify, h]
  · intro url o
    cases o with
    | absent => simp [classify, keepOutcome]
    | err kind msg => cases kind <;> simp [classify, keepOutcome]
    | response code =>
        rw [keepOutcome_response]
        by_cases h : (200 ≤ code ∧ code < 400) ∨ code = 503 ∨ code = 401 ∨ code = 403 <;>
          simp [classify, h]

/-- Claim C3: the probe's outcome is scheme-determined without a
network call in the non-HTTP cases — a `file://` URL (matched by the
case-insensitive regex on the raw string) checks path existence; a URL
whose trimmed, lower-cased form starts with neither `http:` nor
`https:` is `Absent` unconditionally; and in both of those cases the
outcome does not depend on the HTTP layer at all, so only
`http:`/`https:` URLs trigger a network fetch. -/
theorem probe_by_scheme (env : FetchEnv) (url : String) :
    (∀ p, fileUrlMatch url = some p →
        fetch env url =
          if env.fileExists p then .absent else .err .fileNotFound p)
    ∧ (fileUrlMatch url = none →
        pyStartsWith (pyLower (pyStrip url)) "http:" = false →
        pyStartsWith (pyLower (pyStrip url)) "https:" = false →
        fetch env url = .absent)
    ∧ (∀ env2 : FetchEnv, env2.fileExists = env.fileExists →
        ((∃ p, fileUrlMatch url = some p) ∨
          (pyStartsWith (pyLower (pyStrip url)) "http:" = false ∧
           pyStartsWith (pyLower (pyStrip url)) "https:" = false)) →
        fetch env url = fetch env2 url) := by
  refine ⟨?_, ?_, ?_⟩
  · intro p hp
    unfold fetch
    rw [hp]
  · intro hn h1 h2
    unfold fetch
    rw [hn]
    simp [h1, h2]
  · intro env2 hfs hcase
    unfold fetch
    rcases hcase with ⟨p, hp⟩ | ⟨h1, h2⟩
    · rw [hp, hfs]
    · cases hm : fileUrlMatch url
      · simp [h1, h2]
      · rw [hfs]

/-- Claim C3 witness: each of the three probe branches evaluated at a
concrete URL — a missing `file://` path, a non-HTTP scheme, and
HTTP-layer independence for a `mailto:` URL across two environments
that differ on every GET. -/
theorem probe_by_scheme_witness :
    fetch envAllOk "file:///nope" = .err .fileNotFound "/nope"
    ∧ fetch envAllOk "ftp://x" = .absent
    ∧ fetch envAllOk "mailto:a@b" = fetch env404 "mailto:a@b" := by
  refine ⟨?_, ?_, ?_⟩
  · have h := (probe_by_scheme envAllOk "file:///nope").1 "/nope" (by rfl)
    simpa [envAllOk] using h
  · exact (probe_by_scheme envAllOk "ftp://x").2.1 (by rfl) (by rfl) (by rfl)
  · exact (probe_by_scheme envAllOk "mailto:a@b").2.2 env404 (by rfl)
      (Or.inr ⟨by rfl, by rfl⟩)

/-- Claim C9 counterexample: the core filtering operation
`filter_bookmarks` declares `max_workers: int = 64` (source line 40),
so its default concurrency limit is 64 — not "large, in the
thousands". -/
theorem core_default_max_workers_not_thousands :
    filterBookmarksDefaultMaxWorkers = 64 ∧
      filterBookmarksDefaultMaxWorkers < 1000 := by
  exact ⟨rfl, by decide⟩

/-- Claim C9 amended: the core function's concurrency-limit default
is the positive integer 64; it is the command-line interface whose
default, `DEFAULT_MAX_WORKERS` (source line 130), is 2048 — in the
thousands. -/
theorem default_max_workers_values :
    0 < filterBookmarksDefaultMaxWorkers
    ∧ filterBookmarksDefaultMaxWorkers = 64
    ∧ DEFAULT_MAX_WORKERS = 2048
    ∧ 1000 ≤ DEFAULT_MAX_WORKERS := by
  refine ⟨by decide, rfl, rfl, by decide⟩

/-- Claim C10: a container without a `children` field is neither an
error nor treated as malformed — the walk yields no leaves beneath it,
and the rebuild (under any futures table, even an everywhere-empty
one) emits a copy of it still without a `children` field, dropping
nothing. -/
theorem childless_container_passthrough
    (table : String → Option Outcome) (m : Meta) (path : List Entry) :
    _walk_bookmarks (.container none m) path = .ok []
    ∧ filterEntry table (.container none m) = .ok ([.container none m], 0) :=
  ⟨rfl, rfl⟩

/-- Claim C1: for a well-formed sibling list whose URLs all have
table entries, the rebuilt list is exactly the input restricted to
kept leaves — a dropped leaf is absent, a kept leaf present unchanged,
every container present (never dropped) with recursively rebuilt
children, input order preserved; and, leaf-level, the places of the
restriction are precisely the places of the input whose URL
classifies as kept, in input depth-first order. -/
theorem rebuild_is_input_restricted_to_kept_leaves
    (table : String → Option Outcome) (es : List Entry)
    (hwf : wellFormedList es = true)
    (htot : ∀ u ∈ placeUris es, (table u).isSome = true) :
    (∃ n, filterList table es = .ok (restrictKept (keepFn table) es, n))
    ∧ placesOf (restrictKept (keepFn table) es) =
        (placesOf es).filter (fun pm => keepFn table pm.1) := by
  obtain ⟨n, heq, _⟩ := filterList_eq_restrict table es hwf htot
  exact ⟨⟨n, heq⟩, placesOf_restrictKept _ es hwf⟩

/-- Claim C1 witness: the restriction theorem applied to `treeW`
under `tableW` (which 404s the URL `"a"` and keeps everything else);
the resulting drop count evaluates to 1. -/
theorem rebuild_is_input_restricted_witness :
    filterList tableW [treeW] =
      .ok (restrictKept (keepFn tableW) [treeW], 1)
    ∧ placesOf (restrictKept (keepFn tableW) [treeW]) =
        (placesOf [treeW]).filter (fun pm => keepFn tableW pm.1) := by
  have h := rebuild_is_input_restricted_to_kept_leaves tableW [treeW] (by rfl)
    (fun u _ => by
      show (tableW u).isSome = true
      unfold tableW
      cases hu : u == "a" <;> simp [hu])
  exact ⟨by rfl, h.2⟩

/-- Claim C5: a tree containing a node whose type tag is neither the
container kind nor the place kind (`wellFormed input = false`) makes
the whole pass fail with the uncaught `unhandeled type` error — the
error propagates out of `filter_bookmarks` and no output tree, not
even a partial one, is produced. -/
theorem unknown_entry_kind_aborts_pass (env : FetchEnv) (now_us : Int)
    (input : Entry) (h : wellFormed input = false) :
    ∃ tag, filter_bookmarks env now_us input =
      .error ("unhandeled type: " ++ tag) := by
  obtain ⟨tag, htag⟩ := walk_err_of_nwf input [] h
  refine ⟨tag, ?_⟩
  unfold filter_bookmarks rebuiltTop walk_bookmarks
  rw [htag]

/-- Claim C5 witness: the pass aborts on a tree whose root carries an
unknown type tag, with that tag in the error. -/
theorem unknown_entry_kind_aborts_witness :
    filter_bookmarks envAllOk 0 (.other "text/x-moz-query" none []) =
      .error ("unhandeled type: " ++ "text/x-moz-query") := by
  obtain ⟨tag, htag⟩ := unknown_entry_kind_aborts_pass envAllOk 0
    (.other "text/x-moz-query" none []) (by rfl)
  exact rfl

/-- Claim C4: over the pairs walked from any input tree, the futures
table holds exactly one entry per distinct URL string (exact,
case-sensitive key) — count 1 for every referenced URL, count 0
otherwise — that entry is the outcome of the single `fetch` of that
URL, and every leaf referencing the URL receives the same keep/drop
decision, determined by that one outcome regardless of the leaf's
metadata or position. -/
theorem dedup_one_probe_same_decision (env : FetchEnv) (input : Entry)
    (walked : List (List Entry × Entry))
    (_hwalk : walk_bookmarks input = .ok walked) :
    (∀ url, url ∈ walked.map (fun pb => uriOf pb.2) →
        ((buildTable env walked).map Prod.fst).count url = 1 ∧
        lookupTable (buildTable env walked) url = some (fetch env url))
    ∧ (∀ url, url ∉ walked.map (fun pb => uriOf pb.2) →
        ((buildTable env walked).map Prod.fst).count url = 0)
    ∧ (∀ uri m, uri ∈ walked.map (fun pb => uriOf pb.2) →
        filterEntry (lookupTable (buildTable env walked)) (.place uri m) =
          if keepOutcome (fetch env uri) then .ok ([.place uri m], 0)
          else .ok ([], 1)) := by
  refine ⟨?_, ?_, ?_⟩
  · intro url hmem
    refine ⟨?_, buildTable_lookup_of_mem env walked url hmem⟩
    apply List.count_eq_one_of_mem
    · exact buildTable_fold_nodup env walked [] (by simp)
    · exact (buildTable_fold_keys_mem env walked [] url).mpr (Or.inr hmem)
  · intro url hnmem
    apply List.count_eq_zero_of_not_mem
    intro hin
    rcases (buildTable_fold_keys_mem env walked [] url).mp hin with h0 | h1
    · simp at h0
    · exact hnmem h1
  · intro uri m hmem
    have hlook := buildTable_lookup_of_mem env walked uri hmem
    simp [filterEntry, hlook]

/-- Claim C4 witness: in `dupTree` the URL `"dup"` occurs at two
distinct leaves; its key occurs exactly once in the table, holds the
single probe's outcome, and the shared decision (keep, drop count 0)
follows from that outcome. -/
theorem dedup_one_probe_witness :
    ((buildTable envAllOk dupWalked).map Prod.fst).count "dup" = 1
    ∧ lookupTable (buildTable envAllOk dupWalked) "dup" =
        some (fetch envAllOk "dup")
    ∧ filterEntry (lookupTable (buildTable envAllOk dupWalked))
        (.place "dup" []) = .ok ([.place "dup" []], 0) := by
  obtain ⟨h1, _, h3⟩ :=
    dedup_one_probe_same_decision envAllOk dupTree dupWalked (by rfl)
  have hmem : "dup" ∈ dupWalked.map (fun pb => uriOf pb.2) := by decide
  refine ⟨(h1 "dup" hmem).1, (h1 "dup" hmem).2, ?_⟩
  rw [h3 "dup" [] hmem]
  rfl

/-- Claim C6: whenever the rebuilt top-level list is empty — which,
for a well-formed input, can only happen when the root itself is a
place whose probe outcome classifies as drop — the pass returns the
synthesized canonical empty root (fixed identity fields, empty
children list, both timestamps equal to the wall-clock microsecond
parameter) with drop count 1; and the pass's output root is always a
well-formed rooted tree. -/
theorem empty_rebuild_synthesizes_root (env : FetchEnv) (now_us : Int)
    (input : Entry) (hwf : wellFormed input = true) :
    (∀ fe n, rebuiltTop env input = .ok (fe, n) → fe = [] →
        ∃ uri m, input = .place uri m ∧ keepOutcome (fetch env uri) = false)
    ∧ ((∃ uri m, input = .place uri m ∧ keepOutcome (fetch env uri) = false) →
        filter_bookmarks env now_us input = .ok ⟨emptyRoot now_us, 1⟩)
    ∧ (∀ r, filter_bookmarks env now_us input = .ok r →
        wellFormed r.root = true) := by
  obtain ⟨n0, hreb, hcnt⟩ := rebuiltTop_eq env input hwf
  have hrk : restrictKept (passKeep env) [input] =
      restrictEntry (passKeep env) input := by
    simp [restrictKept]
  refine ⟨?_, ?_, ?_⟩
  · intro fe n hfe hempty
    rw [hreb] at hfe
    have hfeq : restrictKept (passKeep env) [input] = fe := by
      have := Except.ok.inj hfe
      exact congrArg Prod.fst this
    rw [hempty] at hfeq
    rw [hrk] at hfeq
    cases input with
    | place u m =>
        refine ⟨u, m, rfl, ?_⟩
        by_contra hk
        rw [Bool.not_eq_false] at hk
        rw [restrictEntry] at hfeq
        simp [passKeep, hk] at hfeq
    | container c m =>
        rcases restrictEntry_shape (passKeep env) (.container c m) with hs | ⟨x, hs⟩
        · cases c with
          | none => simp [restrictEntry] at hs
          | some cs => simp [restrictEntry] at hs
        · rw [hs] at hfeq
          simp at hfeq
    | other t c m => simp [wellFormed] at hwf
  · rintro ⟨uri, m, rfl, hdrop⟩
    have hrk0 : restrictKept (passKeep env) [Entry.place uri m] = [] := by
      simp [restrictKept, restrictEntry, passKeep, hdrop]
    have hn0 : n0 = 1 := by
      rw [hrk0] at hcnt
      simpa [countPlaces, placesOf, entryPlaces] using hcnt
    unfold filter_bookmarks
    rw [hreb, hrk0, hn0]
  · intro r hr
    unfold filter_bookmarks at hr
    rw [hreb] at hr
    cases hshape : restrictKept (passKeep env) [input] with
    | nil =>
        rw [hshape] at hr
        have : r = ⟨emptyRoot now_us, n0⟩ := (Except.ok.inj hr).symm
        rw [this]
        rfl
    | cons e rest =>
        rw [hshape] at hr
        have hre : r = ⟨e, n0⟩ := (Except.ok.inj hr).symm
        have hwfl : wellFormedList (restrictKept (passKeep env) [input]) = true :=
          restrictKept_wf _ _ (by simp [wellFormedList, hwf])
        rw [hshape, wellFormedList] at hwfl
        rw [hre]
        exact ((Bool.and_eq_true ..).mp hwfl).1

/-- Claim C6 witness: a root that is a single leaf whose probe
returns 404 rebuilds to the empty list, and the pass returns the
synthesized empty root with timestamp 7 and drop count 1. -/
theorem empty_rebuild_synthesizes_witness :
    filter_bookmarks env404 7 (.place "http://gone.example/" []) =
      .ok ⟨emptyRoot 7, 1⟩ :=
  (empty_rebuild_synthesizes_root env404 7 (.place "http://gone.example/" [])
      (by rfl)).2.1 ⟨"http://gone.example/", [], rfl, by rfl⟩

/-- Claim C7: the output tree and drop count depend only on the input
tree and the per-URL probe outcomes — two environments whose `fetch`
agrees on every URL occurring in the tree produce identical pass
results, so probe completion order (absent from this functional
model) cannot influence the result. -/
theorem output_independent_of_probe_completion (env1 env2 : FetchEnv)
    (now_us : Int) (input : Entry)
    (hagree : ∀ url ∈ placeUris [input], fetch env1 url = fetch env2 url) :
    filter_bookmarks env1 now_us input = filter_bookmarks env2 now_us input := by
  cases hwf : wellFormed input with
  | false =>
      obtain ⟨tag, htag⟩ := walk_err_of_nwf input [] hwf
      unfold filter_bookmarks rebuiltTop walk_bookmarks
      rw [htag]
  | true =>
      obtain ⟨l, hwb, hmap⟩ := walk_bookmarks_ok_of_wf input hwf
      have huris : l.map (fun pb => uriOf pb.2) = entryUris input := by
        rw [map_uriOf_of_places l (entryPlaces input) hmap,
          entryUris_eq_places_fst]
      have hpb : ∀ pb ∈ l, fetch env1 (uriOf pb.2) = fetch env2 (uriOf pb.2) := by
        intro pb hpbl
        apply hagree
        have hm : uriOf pb.2 ∈ l.map (fun q => uriOf q.2) :=
          List.mem_map_of_mem _ hpbl
        rw [huris] at hm
        simpa [placeUris] using hm
      have htab := buildTable_congr env1 env2 l hpb
      have hrt : rebuiltTop env1 input = rebuiltTop env2 input := by
        unfold rebuiltTop
        rw [hwb]
        show filterList (lookupTable (buildTable env1 l)) [input] =
          filterList (lookupTable (buildTable env2 l)) [input]
        rw [htab]
      unfold filter_bookmarks
      rw [hrt]

/-- Claim C7 witness: two environments that disagree on every HTTP
outcome (all-200 versus all-404) still produce identical results on a
tree whose only URL is a pass-through `mailto:` leaf. -/
theorem output_independent_witness :
    filter_bookmarks envAllOk 0 (.place "mailto:a@b" []) =
      filter_bookmarks env404 0 (.place "mailto:a@b" []) :=
  output_independent_of_probe_completion envAllOk env404 0
    (.place "mailto:a@b" [])
    (fun url hu => by
      have hu' : url ∈ ["mailto:a@b"] := hu
      rw [List.mem_singleton.mp hu']
      rfl)

/-- Claim C8: on a well-formed input the pass returns a
`FilterResult` carrying the rebuilt root together with the drop
count, and the drop count equals the number of leaf occurrences
omitted from the output: it is the difference between the leaf counts
of the input and of the returned root. -/
theorem pass_result_counts_omitted_leaves (env : FetchEnv) (now_us : Int)
    (input : Entry) (hwf : wellFormed input = true) :
    ∃ r : FilterResult, filter_bookmarks env now_us input = .ok r ∧
      r.dropCount + countPlaces [r.root] = countPlaces [input] := by
  obtain ⟨n, hreb, hcnt⟩ := rebuiltTop_eq env input hwf
  have hrk : restrictKept (passKeep env) [input] =
      restrictEntry (passKeep env) input := by
    simp [restrictKept]
  rcases restrictEntry_shape (passKeep env) input with hsh | ⟨x, hsh⟩
  · refine ⟨⟨emptyRoot now_us, n⟩, ?_, ?_⟩
    · unfold filter_bookmarks
      rw [hreb, hrk, hsh]
    · show n + countPlaces [emptyRoot now_us] = countPlaces [input]
      rw [hrk, hsh] at hcnt
      have h0 : countPlaces [emptyRoot now_us] = 0 := rfl
      have h1 : countPlaces ([] : List Entry) = 0 := rfl
      rw [h0]
      rw [h1] at hcnt
      exact hcnt
  · refine ⟨⟨x, n⟩, ?_, ?_⟩
    · unfold filter_bookmarks
      rw [hreb, hrk, hsh]
    · show n + countPlaces [x] = countPlaces [input]
      rw [hrk, hsh] at hcnt
      exact hcnt

/-- Claim C8 witness: under the all-200 environment `treeW` rebuilds
to itself with drop count 0, and the count equation holds. -/
theorem pass_returns_witness :
    filter_bookmarks envAllOk 0 treeW = .ok ⟨treeW, 0⟩ ∧
      (0 : Nat) + countPlaces [treeW] = countPlaces [treeW] := by
  obtain ⟨r, hr, hcnt⟩ := pass_result_counts_omitted_leaves envAllOk 0 treeW
    (by rfl)
  have heval : filter_bookmarks envAllOk 0 treeW = .ok ⟨treeW, 0⟩ := rfl
  rw [heval] at hr
  obtain rfl : (⟨treeW, 0⟩ : FilterResult) = r := Except.ok.inj hr
  exact ⟨heval, hcnt⟩

end FilterBookmarks
